import Mathlib

/-!
Verification of the block-structured medical-data parser
(`medical_data_parser.py`).  The parser's text pipeline is embedded
shallowly: a line of input is a `List Char`, the pandas `DataFrame` of a
block is a `Table` of typed `Value`s, and the mutable `self.blocks` dict
is an explicit association list threaded through the processing fold.
-/

set_option autoImplicit false

namespace CGMview

/-! ## Basic text utilities (Python `str` operations used by the parser) -/

/-- Whitespace characters recognised by Python `str.strip` / `str.split`. -/
def isSpaceChar (c : Char) : Bool :=
  (c == ' ') || (c == '\t') || (c == '\n') || (c == '\r') || (c == '\x0b') || (c == '\x0c')

/-- Remove leading whitespace, as the left half of Python `str.strip`. -/
def stripLeft (l : List Char) : List Char := l.dropWhile isSpaceChar

/-- Python `str.strip`: remove leading and trailing whitespace. -/
def strip (l : List Char) : List Char :=
  ((stripLeft l).reverse.dropWhile isSpaceChar).reverse

/-- Does the character `c` occur in the line?  (Python `c in line`.) -/
def hasChar (c : Char) : List Char → Bool
  | [] => false
  | x :: t => (x == c) || hasChar c t

/-- Is `pat` a prefix of `l`?  (Helper for the substring test.) -/
def begWith : List Char → List Char → Bool
  | [], _ => true
  | _ :: _, [] => false
  | a :: as, b :: bs => (a == b) && begWith as bs

/-- Does `pat` occur as a contiguous substring of `l`?  (Python `pat in line`.) -/
def hasSub (pat : List Char) : List Char → Bool
  | [] => begWith pat []
  | c :: t => begWith pat (c :: t) || hasSub pat t

/-- Accumulator-based splitter on whitespace runs, as Python `str.split()`
with no argument: no empty tokens are produced. -/
def wordsAux (cur : List Char) : List Char → List (List Char)
  | [] => if cur = [] then [] else [cur.reverse]
  | c :: t =>
    if isSpaceChar c then
      if cur = [] then wordsAux [] t else cur.reverse :: wordsAux [] t
    else wordsAux (c :: cur) t

/-- Python `str.split()` (split on whitespace runs, dropping empties). -/
def words (l : List Char) : List (List Char) := wordsAux [] l

/-- Accumulator-based splitter on a tab, as Python `str.split('\t')`:
empty pieces are kept. -/
def splitTabAux (cur : List Char) : List Char → List (List Char)
  | [] => [cur.reverse]
  | c :: t => if c == '\t' then cur.reverse :: splitTabAux [] t else splitTabAux (c :: cur) t

/-- Python `line.split('\t')`. -/
def splitTab (l : List Char) : List (List Char) := splitTabAux [] l

/-- Skip to just past the first `')'`, as the regex `\([^)]*\)` does after
an opening parenthesis; `none` when no closing parenthesis exists. -/
def findClose : List Char → Option (List Char)
  | [] => none
  | c :: t => if c == ')' then some t else findClose t

/-- Worker for `removeParens`; the fuel argument only bounds the
recursion depth (a skip past `')'` shortens the input, so `l.length`
fuel always suffices and the fuel-exhausted branch is never taken). -/
def removeParensAux : Nat → List Char → List Char
  | 0, _ => []
  | _ + 1, [] => []
  | f + 1, c :: t =>
    if c == '(' then
      match findClose t with
      | some rest => removeParensAux f rest
      | none => c :: removeParensAux f t
    else c :: removeParensAux f t

/-- Python `re.sub(r'\([^)]*\)', '', line)`: delete every non-overlapping
match of an opening parenthesis, a run of non-`')'` characters and the
closing parenthesis; an unmatched `'('` is kept verbatim. -/
def removeParens (l : List Char) : List Char := removeParensAux l.length l

/-- Is `c` an ASCII digit? -/
def isDigitChar (c : Char) : Bool := (48 ≤ c.toNat) && (c.toNat ≤ 57)

/-- Numeric value of a digit string (most significant first). -/
def natOfDigits (l : List Char) : Nat := l.foldl (fun a c => a * 10 + (c.toNat - 48)) 0

/-- Leading digits of `l` (at most `n` of them) together with the rest. -/
def takeDigitsUpTo : Nat → List Char → List Char × List Char
  | 0, l => ([], l)
  | _ + 1, [] => ([], [])
  | n + 1, c :: t =>
    if isDigitChar c then
      let p := takeDigitsUpTo n t
      (c :: p.1, p.2)
    else ([], c :: t)

/-! ## Line classification and tokenisation
(methods `is_header_line`, `is_format_line`, `extract_block_name`,
`parse_columns`, `parse_data_line` of `MedicalDataParser`). -/

/-- Source `is_header_line`: a line is a block header iff it contains `'*'`. -/
def is_header_line (l : List Char) : Bool := hasChar '*' l

/-- Substring hint recognised by `is_format_line`. -/
def fmtHintDate : List Char := ("(dd/mm/yyyy").toList

/-- Substring hint recognised by `is_format_line`. -/
def fmtHintMin : List Char := ("(min)").toList

/-- Source `is_format_line`: the line contains `"(dd/mm/yyyy"` or `"(min)"`. -/
def is_format_line (l : List Char) : Bool := hasSub fmtHintDate l || hasSub fmtHintMin l

/-- Source `extract_block_name`: delete every asterisk
(`re.sub(r'\*+', '', line)`) and strip surrounding whitespace. -/
def extract_block_name (l : List Char) : List Char :=
  strip (l.filter (fun c => c != '*'))

/-- Source `parse_columns`: delete parenthesised units, then split on
whitespace into non-empty tokens. -/
def parse_columns (l : List Char) : List (List Char) := words (removeParens l)

/-- Source `parse_data_line`: split on tabs, strip each piece, keep the
non-empty ones. -/
def parse_data_line (l : List Char) : List (List Char) :=
  ((splitTab l).map strip).filter (fun s => !s.isEmpty)

/-! ## Typed values and timestamp / numeric parsing
(the `pd.to_datetime` / `pd.to_numeric` coercions of `create_dataframe`). -/

/-- A parsed calendar timestamp (`%d/%m/%Y %H:%M`). -/
structure DateTime where
  day : Nat
  month : Nat
  year : Nat
  hour : Nat
  minute : Nat
deriving DecidableEq, Repr

/-- A typed cell of a block table: missing (`pd.NA` / `NaT`), a numeric
value, a timestamp, or left-over text. -/
inductive Value where
  | missing : Value
  | num : ℚ → Value
  | time : DateTime → Value
  | text : List Char → Value
deriving DecidableEq, Repr

/-- A block's typed table: ordered column names and ordered rows. -/
structure Table where
  columns : List (List Char)
  rows : List (List Value)
deriving DecidableEq, Repr

/-- The empty `pd.DataFrame()`. -/
def emptyTable : Table := ⟨[], []⟩

/-- Expect the character `c` at the head of the input. -/
def expectCh (c : Char) : List Char → Option (List Char)
  | [] => none
  | x :: t => if x == c then some t else none

/-- Read one or two digits as a number (as `strptime` does for
`%d`, `%m`, `%H`, `%M`). -/
def readNat2 (l : List Char) : Option (Nat × List Char) :=
  match takeDigitsUpTo 2 l with
  | ([], _) => none
  | (ds, r) => some (natOfDigits ds, r)

/-- Read exactly four digits as a year (`%Y`). -/
def readYear4 (l : List Char) : Option (Nat × List Char) :=
  match takeDigitsUpTo 4 l with
  | (ds, r) => if ds.length = 4 then some (natOfDigits ds, r) else none

/-- Gregorian leap-year test. -/
def isLeap (y : Nat) : Bool := ((y % 4 == 0) && !(y % 100 == 0)) || (y % 400 == 0)

/-- Days in a month, for validating a parsed date. -/
def daysInMonth (y m : Nat) : Nat :=
  if m = 2 then (if isLeap y then 29 else 28)
  else if m = 4 ∨ m = 6 ∨ m = 9 ∨ m = 11 then 30 else 31

/-- Parse a cell against the fixed format `%d/%m/%Y %H:%M`
(`pd.to_datetime(..., format='%d/%m/%Y %H:%M')` on one element):
day/month/year hour:minute, full-string match, with calendar validation. -/
def parseTimestamp (l : List Char) : Option DateTime := do
  let (d, r1) ← readNat2 l
  let r2 ← expectCh '/' r1
  let (m, r3) ← readNat2 r2
  let r4 ← expectCh '/' r3
  let (y, r5) ← readYear4 r4
  let r6 ← expectCh ' ' r5
  let (hh, r7) ← readNat2 r6
  let r8 ← expectCh ':' r7
  let (mm, r9) ← readNat2 r8
  if r9 = [] ∧ 1 ≤ d ∧ 1 ≤ m ∧ m ≤ 12 ∧ d ≤ daysInMonth y m ∧ hh ≤ 23 ∧ mm ≤ 59 then
    some (DateTime.mk d m y hh mm)
  else none

/-- Sign prefix of a numeric token: `true` means negative. -/
def parseSign : List Char → Bool × List Char
  | '-' :: t => (true, t)
  | '+' :: t => (false, t)
  | l => (false, l)

/-- Leading digit run of the input, with the rest. -/
def spanDigits (l : List Char) : List Char × List Char :=
  (l.takeWhile isDigitChar, l.dropWhile isDigitChar)

/-- The rational `±m · 10^e` (sign, decimal mantissa, ten-exponent),
built with `mkRat` so that concrete values evaluate. -/
def mkDecimal (neg : Bool) (m : Nat) (e : Int) : ℚ :=
  match e with
  | Int.ofNat k => mkRat (if neg then -(m * 10 ^ k : Int) else (m * 10 ^ k : Int)) 1
  | Int.negSucc k => mkRat (if neg then -(m : Int) else (m : Int)) (10 ^ (k + 1))

/-- Exponent suffix of a decimal literal (after `e`/`E`): an optionally
signed digit run ending the token. -/
def parseExpDigits (l : List Char) : Option Int :=
  let s := parseSign l
  let p := spanDigits s.2
  if p.1 = [] ∨ p.2 ≠ [] then none
  else some (if s.1 then -(natOfDigits p.1 : Int) else (natOfDigits p.1 : Int))

/-- Parse a cell as a decimal number (`pd.to_numeric` on one element):
optional sign, integer and/or fractional digits, optional exponent; the
value is `±(digits) · 10^(exponent - fraction length)`. -/
def parseNum (l : List Char) : Option ℚ :=
  let s := parseSign l
  let p1 := spanDigits s.2
  let p2 : List Char × List Char :=
    match p1.2 with
    | '.' :: t => spanDigits t
    | _ => (p1.1, p1.2)
  let intDigits := p1.1
  let fracDigits : List Char := match p1.2 with
    | '.' :: _ => p2.1
    | _ => []
  let rest : List Char := match p1.2 with
    | '.' :: _ => p2.2
    | _ => p1.2
  if intDigits = [] ∧ fracDigits = [] then none
  else
    let m := natOfDigits (intDigits ++ fracDigits)
    let fe : Int := (fracDigits.length : Int)
    match rest with
    | [] => some (mkDecimal s.1 m (0 - fe))
    | 'e' :: t => (parseExpDigits t).map (fun ex => mkDecimal s.1 m (ex - fe))
    | 'E' :: t => (parseExpDigits t).map (fun ex => mkDecimal s.1 m (ex - fe))
    | _ => none

/-! ## Column normalisation (the coercion passes of `create_dataframe`). -/

/-- The distinguished column name `"Time"`. -/
def timeName : List Char := ("Time").toList

/-- The missing-value literal `"-"`. -/
def hyphen : List Char := ("-").toList

/-- Source `df[col].replace('-', pd.NA)`: cells equal to `"-"` become
missing (`none`) before numeric coercion. -/
def replMissing (cells : List (List Char)) : List (Option (List Char)) :=
  cells.map (fun c => if c = hyphen then none else some c)

/-- Does a (possibly missing) cell survive numeric conversion?
Missing cells are skipped by `pd.to_numeric`. -/
def numOk : Option (List Char) → Bool
  | none => true
  | some c => (parseNum c).isSome

/-- Value of a cell when the whole column converts to numeric. -/
def numVal : Option (List Char) → Value
  | none => Value.missing
  | some c =>
    match parseNum c with
    | some q => Value.num q
    | none => Value.text c

/-- Value of a cell when numeric conversion of the column failed
(`errors='ignore'` returns the input series unchanged). -/
def textVal : Option (List Char) → Value
  | none => Value.missing
  | some c => Value.text c

/-- Source `pd.to_numeric(df[col].replace('-', pd.NA), errors='ignore')`:
the conversion succeeds for the whole column, or returns the
(`'-'`-replaced) column unchanged. -/
def normNumeric (cells : List (List Char)) : List Value :=
  if (replMissing cells).all numOk then (replMissing cells).map numVal
  else (replMissing cells).map textVal

/-- Parse every cell of a Time column; `none` as soon as one fails
(`pd.to_datetime` raises on the first bad element). -/
def parseAllTimes : List (List Char) → Option (List DateTime)
  | [] => some []
  | c :: cs =>
    match parseTimestamp c, parseAllTimes cs with
    | some t, some ts => some (t :: ts)
    | _, _ => none

/-- Source Time-column conversion: all cells become timestamps, or the
`ValueError` is caught and the column is left as text. -/
def normTime (cells : List (List Char)) : List Value :=
  match parseAllTimes cells with
  | some ts => ts.map Value.time
  | none => cells.map Value.text

/-- Normalise one column by its name: `Time` gets the timestamp pass,
every other column the numeric pass. -/
def normCol (name : List Char) (cells : List (List Char)) : List Value :=
  if name = timeName then normTime cells else normNumeric cells

/-- The raw (string) cells of column `j`. -/
def cellsAt (data : List (List (List Char))) (j : Nat) : List (List Char) :=
  data.map (fun r => r.getD j [])

/-- Normalised column `j` of a block. -/
def normColAt (cols : List (List Char)) (data : List (List (List Char))) (j : Nat) :
    List Value :=
  normCol (cols.getD j []) (cellsAt data j)

/-- Assemble the typed table: `pd.DataFrame(data, columns=columns)`
followed by the per-column coercions, read back row-wise. -/
def mkTable (cols : List (List Char)) (data : List (List (List Char))) : Table :=
  { columns := cols,
    rows := (List.range data.length).map fun i =>
      (List.range cols.length).map fun j => (normColAt cols data j).getD i Value.missing }

/-! ## `create_dataframe`: schema extraction, row acceptance, coercion. -/

/-- One step of the line loop in `create_dataframe`: skip format lines,
take the first remaining line as the column schema, and accept a later
line as a row iff its token list is non-empty and exactly as long as the
column list. -/
def rp_step (s : Option (List (List Char)) × List (List (List Char))) (l : List Char) :
    Option (List (List Char)) × List (List (List Char)) :=
  if is_format_line l then s
  else
    match s.1 with
    | none => (some (parse_columns l), s.2)
    | some cols =>
      let v := parse_data_line l
      if v ≠ [] ∧ v.length = cols.length then (s.1, s.2 ++ [v]) else s

/-- The schema/row extraction loop of `create_dataframe`. -/
def rawParse (bl : List (List Char)) : Option (List (List Char)) × List (List (List Char)) :=
  bl.foldl rp_step (none, [])

/-- Source `create_dataframe`: an empty `DataFrame` when no schema, no
columns or no accepted rows; otherwise the typed table. -/
def create_dataframe (bl : List (List Char)) : Table :=
  match rawParse bl with
  | (none, _) => emptyTable
  | (some cols, data) => if cols = [] ∨ data = [] then emptyTable else mkTable cols data

/-- First index of column `k`, as pandas label-based access selects. -/
def idxOfCol (k : List Char) : List (List Char) → Nat
  | [] => 0
  | c :: t => if c = k then 0 else idxOfCol k t + 1

/-- Did `create_dataframe` print the Time-conversion warning for this
block?  (`except ValueError` branch: a `Time` column exists in a
non-empty table and some cell fails the fixed format.) -/
def time_warning (bl : List (List Char)) : Bool :=
  match rawParse bl with
  | (none, _) => false
  | (some cols, data) =>
    if cols = [] ∨ data = [] then false
    else cols.contains timeName && (parseAllTimes (cellsAt data (idxOfCol timeName cols))).isNone

/-! ## `process_blocks`: segmentation and the block dictionary. -/

/-- Python `dict` assignment `blocks[name] = df`: replace the value at an
existing key in place, otherwise append the pair. -/
def dictInsert {α : Type} : List (List Char × α) → List Char → α → List (List Char × α)
  | [], k, v => [(k, v)]
  | (k0, v0) :: r, k, v =>
    if k0 = k then (k0, v) :: r else (k0, v0) :: dictInsert r k v

/-- Python `dict.get`: the value at the first matching key. -/
def dictLookup {α : Type} : List (List Char × α) → List Char → Option α
  | [], _ => none
  | (k0, v0) :: r, k => if k0 = k then some v0 else dictLookup r k

/-- The loop state of `process_blocks`: the accumulated block dict, the
pending block name and the pending block lines. -/
structure PState where
  blocks : List (List Char × Table)
  name : Option (List Char)
  cur : List (List Char)
deriving Repr

/-- Source `if current_block_name and current_block:` — materialise the
pending block into the dict when the name is set and non-empty and lines
were collected. -/
def flush_blocks (s : PState) : List (List Char × Table) :=
  match s.name with
  | some n => if n ≠ [] ∧ s.cur ≠ [] then dictInsert s.blocks n (create_dataframe s.cur) else s.blocks
  | none => s.blocks

/-- One iteration of the `process_blocks` loop: strip the line, skip it
when empty, start a new block on a header line (emitting the pending
one), otherwise collect the line into the pending block. -/
def pstep (s : PState) (line : List Char) : PState :=
  if strip line = [] then s
  else if is_header_line (strip line) then
    { blocks := flush_blocks s, name := some (extract_block_name (strip line)), cur := [] }
  else { s with cur := s.cur ++ [strip line] }

/-- Source `process_blocks`, with the mutable `self.blocks` made explicit
as the starting dictionary `B` (a fresh parser has `B = []`). -/
def process_blocks_from (B : List (List Char × Table)) (lines : List (List Char)) :
    List (List Char × Table) :=
  flush_blocks (lines.foldl pstep ⟨B, none, []⟩)

/-- `process_blocks` on a fresh parser instance. -/
def process_blocks (lines : List (List Char)) : List (List Char × Table) :=
  process_blocks_from [] lines

/-- Source `get_block`: `self.blocks.get(block_name, pd.DataFrame())`. -/
def get_block (B : List (List Char × Table)) (name : List Char) : Table :=
  (dictLookup B name).getD emptyTable

/-- Source `get_block_names`: `list(self.blocks.keys())`. -/
def get_block_names (B : List (List Char × Table)) : List (List Char) :=
  B.map Prod.fst

/-- Column `j` of a table, read off the rows (observation function for
stating column-level properties). -/
def colAt (t : Table) (j : Nat) : List Value :=
  t.rows.map (fun r => r.getD j Value.missing)

/-- The key list of a block dictionary. -/
def keysOf {α : Type} (B : List (List Char × α)) : List (List Char) := B.map Prod.fst

/-- Last value bound to `k` in a sequence of insertions. -/
def lastVal {α : Type} (k : List Char) : List (List Char × α) → Option α
  | [] => none
  | e :: E =>
    match lastVal k E with
    | some v => some v
    | none => if e.1 = k then some e.2 else none

/-- First occurrences among the insertion keys that are not yet `seen`. -/
def newKeys {α : Type} (seen : List (List Char)) : List (List Char × α) → List (List Char)
  | [] => []
  | e :: E => if e.1 ∈ seen then newKeys seen E else e.1 :: newKeys (seen ++ [e.1]) E

/-- Fold a sequence of insertions into a dictionary. -/
def dfold {α : Type} (B : List (List Char × α)) (E : List (List Char × α)) :
    List (List Char × α) :=
  E.foldl (fun Bk e => dictInsert Bk e.1 e.2) B

/-- The segmentation part of the `process_blocks` loop state, with the
emitted `(name, lines)` pairs kept in emission order instead of folded
into the dictionary. -/
structure SegState where
  emits : List (List Char × List (List Char))
  name : Option (List Char)
  cur : List (List Char)

/-- Emission of the pending block, mirroring `flush_blocks`. -/
def seg_flush (s : SegState) : List (List Char × List (List Char)) :=
  match s.name with
  | some n => if n ≠ [] ∧ s.cur ≠ [] then s.emits ++ [(n, s.cur)] else s.emits
  | none => s.emits

/-- One segmentation step, mirroring `pstep`. -/
def seg_step (s : SegState) (line : List Char) : SegState :=
  if strip line = [] then s
  else if is_header_line (strip line) then
    { emits := seg_flush s, name := some (extract_block_name (strip line)), cur := [] }
  else { s with cur := s.cur ++ [strip line] }

/-- The `(name, lines)` pairs emitted by `process_blocks`, in emission
order. -/
def emissions (lines : List (List Char)) : List (List Char × List (List Char)) :=
  seg_flush (lines.foldl seg_step ⟨[], none, []⟩)

/-- Materialise one emission into a dictionary entry. -/
def emitTable (e : List Char × List (List Char)) : List Char × Table :=
  (e.1, create_dataframe e.2)

/-- Invariant of every emitted block: the name is non-empty and no
collected line contains the header marker. -/
def GoodEmit (e : List Char × List (List Char)) : Prop :=
  e.1 ≠ [] ∧ ∀ l ∈ e.2, is_header_line l = false

/-- One when a block is pending, zero otherwise. -/
def nbOf (s : PState) : Nat :=
  match s.name with
  | some _ => 1
  | none => 0

/-! ## Concrete inputs used by the claim theorems and witnesses. -/

/-- The end-to-end input of spec section 8. -/
def c1Input : List (List Char) := [
  ("**** Glucose_concentration ****").toList,
  ("Time (dd/mm/yyyy hh:mm)\tconc (mmol/L)").toList,
  ("01/01/2024 08:00\t5.5").toList,
  ("01/01/2024 08:05\t-").toList,
  ("**** Meal ****").toList,
  ("Time\tCHO").toList,
  ("01/01/2024 08:10\t30").toList ]

/-- A block with a mixed numeric column: `"1.5"` parses, `"abc"` does not. -/
def c2bl : List (List Char) := [("A").toList, ("1.5").toList, ("abc").toList]

/-- A block whose `Time` column holds the missing-value literal. -/
def c3bl : List (List Char) := [("Time").toList, ("-").toList]

/-- Two blocks; the first has a failing `Time` column, the second is clean. -/
def c4Input : List (List Char) := [
  ("* G *").toList, ("Time\tv").toList, ("notadate\t1").toList,
  ("* M *").toList, ("A").toList, ("2").toList ]

/-- The failing-`Time` block body of `c4Input`. -/
def c4bl : List (List Char) := [("Time\tv").toList, ("notadate\t1").toList]

/-- Two blocks with the same name; the second must win. -/
def c6Input : List (List Char) := [
  ("* A *").toList, ("X").toList, ("1").toList,
  ("* A *").toList, ("X").toList, ("2").toList ]

/-- A header line that also contains the format hint `"(min)"`. -/
def c10Input : List (List Char) := [
  ("* Basal (min) *").toList, ("X").toList, ("2").toList ]

/-- A one-column block whose single cell parses as a number. -/
def w2bl : List (List Char) := [("A").toList, ("1").toList]

/-- A non-`Time` block holding the missing-value literal. -/
def w3bl : List (List Char) := [("A").toList, ("-").toList]

/-- A `Time` block whose single cell parses. -/
def w4bl : List (List Char) := [("Time").toList, ("01/01/2024 08:00").toList]

/-- A three-column block with one short and one exact data line. -/
def w5bl : List (List Char) := [("A B C").toList, ("1\t2").toList, ("1\t2\t3").toList]

/-- A small two-column input for the row-width witness. -/
def w5lines : List (List Char) := [("* B *").toList, ("x\ty").toList, ("1\t2").toList]

/-- A single simple block for the non-empty-name witness. -/
def w9lines : List (List Char) := [("* A *").toList, ("X").toList, ("1").toList]


/-! ## Helper lemmas: lists, `getD`, `strip` membership. -/

theorem getD_map_range {α : Type} (d : α) :
    ∀ (n : Nat) (f : Nat → α) (j : Nat), j < n →
      ((List.range n).map f).getD j d = f j := by
  intro n
  induction n with
  | zero => intro f j hj; omega
  | succ m ih =>
    intro f j hj
    rw [List.range_succ_eq_map]
    cases j with
    | zero => rfl
    | succ i =>
      simp only [List.map_cons, List.map_map, List.getD_cons_succ]
      exact ih (f ∘ Nat.succ) i (by omega)

theorem range_map_getD_self {α : Type} (d : α) :
    ∀ (l : List α), (List.range l.length).map (fun i => l.getD i d) = l := by
  intro l
  induction l with
  | nil => rfl
  | cons a t ih =>
    simp only [List.length_cons]
    rw [List.range_succ_eq_map]
    simp only [List.map_cons, List.map_map, List.getD_cons_zero]
    have hcomp : (List.range t.length).map ((fun i => (a :: t).getD i d) ∘ Nat.succ)
        = (List.range t.length).map (fun i => t.getD i d) := by
      apply List.map_congr_left
      intro i _
      rfl
    rw [hcomp, ih]

theorem getD_map_lt {α β : Type} (f : α → β) (d : α) (d2 : β) :
    ∀ (l : List α) (i : Nat), i < l.length → (l.map f).getD i d2 = f (l.getD i d) := by
  intro l
  induction l with
  | nil => intro i hi; simp at hi
  | cons a t ih =>
    intro i hi
    cases i with
    | zero => rfl
    | succ k => exact ih k (by simpa using hi)

theorem mem_of_mem_dropWhile {α : Type} (p : α → Bool) :
    ∀ (l : List α) (a : α), a ∈ l.dropWhile p → a ∈ l := by
  intro l
  induction l with
  | nil => intro a h; simp [List.dropWhile] at h
  | cons b t ih =>
    intro a h
    rw [List.dropWhile_cons] at h
    by_cases hb : p b = true
    · simp [hb] at h
      exact List.mem_cons_of_mem b (ih a h)
    · simp [hb] at h
      simpa using h

theorem mem_dropWhile_of_mem {α : Type} (p : α → Bool) :
    ∀ (l : List α) (a : α), a ∈ l → p a = false → a ∈ l.dropWhile p := by
  intro l
  induction l with
  | nil => intro a h _; simp at h
  | cons b t ih =>
    intro a h hpa
    rw [List.dropWhile_cons]
    by_cases hb : p b = true
    · rw [if_pos hb]
      rcases List.mem_cons.mp h with h1 | h2
      · subst h1; rw [hpa] at hb; cases hb
      · exact ih a h2 hpa
    · rw [if_neg hb]
      exact h

theorem dropWhile_eq_nil_of_all {α : Type} (p : α → Bool) :
    ∀ (l : List α), (∀ a ∈ l, p a = true) → l.dropWhile p = [] := by
  intro l
  induction l with
  | nil => intro _; rfl
  | cons b t ih =>
    intro h
    rw [List.dropWhile_cons]
    rw [if_pos (h b (List.mem_cons_self b t))]
    exact ih (fun a ha => h a (List.mem_cons_of_mem b ha))

theorem mem_of_mem_strip {a : Char} {l : List Char} (h : a ∈ strip l) : a ∈ l := by
  unfold strip stripLeft at h
  rw [List.mem_reverse] at h
  have h2 := mem_of_mem_dropWhile isSpaceChar _ _ h
  rw [List.mem_reverse] at h2
  exact mem_of_mem_dropWhile isSpaceChar _ _ h2

theorem mem_strip_of_mem {a : Char} {l : List Char}
    (h : a ∈ l) (hs : isSpaceChar a = false) : a ∈ strip l := by
  unfold strip stripLeft
  rw [List.mem_reverse]
  apply mem_dropWhile_of_mem _ _ _ _ hs
  rw [List.mem_reverse]
  exact mem_dropWhile_of_mem _ _ _ h hs

theorem hasChar_iff (c : Char) : ∀ (l : List Char), hasChar c l = true ↔ c ∈ l := by
  intro l
  induction l with
  | nil => simp [hasChar]
  | cons x t ih =>
    simp only [hasChar, Bool.or_eq_true, beq_iff_eq, List.mem_cons, ih]
    constructor
    · rintro (h | h)
      · exact Or.inl h.symm
      · exact Or.inr h
    · rintro (h | h)
      · exact Or.inl h.symm
      · exact Or.inr h

theorem hasChar_strip {c : Char} (hc : isSpaceChar c = false) (l : List Char) :
    hasChar c (strip l) = hasChar c l := by
  by_cases h : hasChar c l = true
  · rw [h]
    rw [hasChar_iff] at h ⊢
    exact mem_strip_of_mem h hc
  · rw [Bool.not_eq_true] at h
    rw [h]
    rw [Bool.eq_false_iff]
    intro habs
    rw [hasChar_iff] at habs
    have := mem_of_mem_strip habs
    rw [← hasChar_iff c l] at this
    rw [h] at this
    cases this

theorem strip_eq_nil_of_all_space {l : List Char}
    (h : ∀ a ∈ l, isSpaceChar a = true) : strip l = [] := by
  unfold strip stripLeft
  rw [dropWhile_eq_nil_of_all isSpaceChar l h]
  rfl

/-! ## Helper lemmas: normalisation lengths and `mkTable` columns. -/

theorem length_replMissing (cells : List (List Char)) :
    (replMissing cells).length = cells.length := by
  simp [replMissing]

theorem length_normNumeric (cells : List (List Char)) :
    (normNumeric cells).length = cells.length := by
  unfold normNumeric
  by_cases h : (replMissing cells).all numOk = true
  · simp [h, length_replMissing]
  · rw [Bool.not_eq_true] at h
    simp [h, length_replMissing]

theorem parseAllTimes_length :
    ∀ (cells : List (List Char)) (ts : List DateTime),
      parseAllTimes cells = some ts → ts.length = cells.length := by
  intro cells
  induction cells with
  | nil => intro ts h; simp [parseAllTimes] at h; subst h; rfl
  | cons c cs ih =>
    intro ts h
    unfold parseAllTimes at h
    cases hp : parseTimestamp c with
    | none => rw [hp] at h; simp at h
    | some t =>
      rw [hp] at h
      cases hr : parseAllTimes cs with
      | none => rw [hr] at h; simp at h
      | some ts2 =>
        rw [hr] at h
        simp at h
        subst h
        simp [ih ts2 hr]

theorem parseAllTimes_none_iff :
    ∀ (cells : List (List Char)),
      parseAllTimes cells = none ↔ ∃ c ∈ cells, parseTimestamp c = none := by
  intro cells
  induction cells with
  | nil => simp [parseAllTimes]
  | cons c cs ih =>
    unfold parseAllTimes
    cases hp : parseTimestamp c with
    | none =>
      simp only [List.exists_mem_cons_iff]
      constructor
      · intro _; exact Or.inl hp
      · intro _; trivial
    | some t =>
      cases hr : parseAllTimes cs with
      | none =>
        simp only [List.exists_mem_cons_iff]
        constructor
        · intro _; exact Or.inr (ih.mp hr)
        · intro _; trivial
      | some ts =>
        simp only [List.exists_mem_cons_iff]
        constructor
        · intro h; simp at h
        · rintro (h | h)
          · rw [hp] at h; cases h
          · rw [← ih] at h; rw [hr] at h; cases h

theorem length_normTime (cells : List (List Char)) :
    (normTime cells).length = cells.length := by
  unfold normTime
  cases h : parseAllTimes cells with
  | none => simp
  | some ts => simp [parseAllTimes_length cells ts h]

theorem length_normCol (n : List Char) (cells : List (List Char)) :
    (normCol n cells).length = cells.length := by
  unfold normCol
  by_cases h : n = timeName
  · simp [h, length_normTime]
  · simp [h, length_normNumeric]

theorem length_cellsAt (data : List (List (List Char))) (j : Nat) :
    (cellsAt data j).length = data.length := by
  simp [cellsAt]

theorem length_normColAt (cols : List (List Char)) (data : List (List (List Char))) (j : Nat) :
    (normColAt cols data j).length = data.length := by
  unfold normColAt
  rw [length_normCol, length_cellsAt]

theorem mkTable_columns (cols : List (List Char)) (data : List (List (List Char))) :
    (mkTable cols data).columns = cols := rfl

theorem mkTable_row_length (cols : List (List Char)) (data : List (List (List Char))) :
    ∀ r ∈ (mkTable cols data).rows, r.length = cols.length := by
  intro r hr
  unfold mkTable at hr
  simp only [List.mem_map] at hr
  obtain ⟨i, _, hri⟩ := hr
  rw [← hri]
  simp

theorem mkTable_colAt (cols : List (List Char)) (data : List (List (List Char)))
    (j : Nat) (hj : j < cols.length) :
    colAt (mkTable cols data) j = normColAt cols data j := by
  unfold colAt mkTable
  simp only [List.map_map]
  have step1 :
      ((List.range data.length).map
        ((fun r => r.getD j Value.missing) ∘ fun i =>
          (List.range cols.length).map fun j2 => (normColAt cols data j2).getD i Value.missing))
      = (List.range data.length).map (fun i => (normColAt cols data j).getD i Value.missing) := by
    apply List.map_congr_left
    intro i _
    simp only [Function.comp]
    exact getD_map_range Value.missing cols.length _ j hj
  rw [step1]
  have hlen : data.length = (normColAt cols data j).length := (length_normColAt cols data j).symm
  rw [hlen]
  exact range_map_getD_self Value.missing (normColAt cols data j)

/-! ## Helper lemmas: the `create_dataframe` extraction loop. -/

theorem rawParse_fold_some :
    ∀ (bl : List (List Char)) (cols : List (List Char)) (acc : List (List (List Char))),
      bl.foldl rp_step (some cols, acc) =
        (some cols,
          acc ++ ((bl.filter (fun l => !is_format_line l)).map parse_data_line).filter
            (fun v => decide (v ≠ [] ∧ v.length = cols.length))) := by
  intro bl
  induction bl with
  | nil => intro cols acc; simp
  | cons l t ih =>
    intro cols acc
    rw [List.foldl_cons]
    by_cases hf : is_format_line l = true
    · have hstep : rp_step (some cols, acc) l = (some cols, acc) := by
        simp [rp_step, hf]
      rw [hstep, ih]
      simp [List.filter_cons, hf]
    · rw [Bool.not_eq_true] at hf
      by_cases hv : parse_data_line l ≠ [] ∧ (parse_data_line l).length = cols.length
      · have hstep : rp_step (some cols, acc) l = (some cols, acc ++ [parse_data_line l]) := by
          simp [rp_step, hf, hv]
        rw [hstep, ih]
        simp only [List.filter_cons, hf, Bool.not_false, if_true, List.map_cons]
        rw [if_pos (by simp only [decide_eq_true_eq]; exact hv)]
        simp [List.append_assoc]
      · have hstep : rp_step (some cols, acc) l = (some cols, acc) := by
          simp only [rp_step, hf, Bool.false_eq_true, if_false]
          rw [if_neg hv]
        rw [hstep, ih]
        simp only [List.filter_cons, hf, Bool.not_false, if_true, List.map_cons]
        rw [if_neg (by simp only [decide_eq_true_eq]; exact hv)]

theorem rawParse_eq :
    ∀ (bl : List (List Char)),
      rawParse bl =
        match bl.filter (fun l => !is_format_line l) with
        | [] => (none, [])
        | s :: rest =>
          (some (parse_columns s),
            (rest.map parse_data_line).filter
              (fun v => decide (v ≠ [] ∧ v.length = (parse_columns s).length))) := by
  intro bl
  induction bl with
  | nil => rfl
  | cons l t ih =>
    by_cases hf : is_format_line l = true
    · have hstep : rp_step (none, []) l = (none, []) := by simp [rp_step, hf]
      have : rawParse (l :: t) = rawParse t := by
        unfold rawParse
        rw [List.foldl_cons, hstep]
      rw [this, ih]
      simp [List.filter_cons, hf]
    · rw [Bool.not_eq_true] at hf
      have hstep : rp_step (none, []) l = (some (parse_columns l), []) := by
        simp [rp_step, hf]
      have : rawParse (l :: t) = t.foldl rp_step (some (parse_columns l), []) := by
        unfold rawParse
        rw [List.foldl_cons, hstep]
      rw [this, rawParse_fold_some]
      simp [List.filter_cons, hf]

theorem rawParse_rows_iff (bl : List (List Char)) (cols : List (List Char))
    (h : (rawParse bl).1 = some cols) (hc : cols ≠ []) :
    (rawParse bl).2 =
      ((bl.filter (fun l => !is_format_line l)).tail.map parse_data_line).filter
        (fun v => decide (v.length = cols.length)) := by
  rw [rawParse_eq bl] at h ⊢
  cases hfl : bl.filter (fun l => !is_format_line l) with
  | nil => rw [hfl] at h; cases h
  | cons s rest =>
    rw [hfl] at h
    simp only at h
    have hcols : parse_columns s = cols := by injection h
    simp only [List.tail_cons, hcols]
    apply List.filter_congr
    intro v _
    have hlen : cols.length ≠ 0 := by
      intro h0
      exact hc (List.length_eq_zero.mp h0)
    by_cases hv : v.length = cols.length
    · have hne : v ≠ [] := by
        intro hnil
        subst hnil
        simp at hv
        exact hlen hv.symm
      simp [hv, hne]
    · simp [hv]

theorem rawParse_cols_nil_rows (bl : List (List Char))
    (h : (rawParse bl).1 = some []) : (rawParse bl).2 = [] := by
  rw [rawParse_eq bl] at h ⊢
  cases hfl : bl.filter (fun l => !is_format_line l) with
  | nil => rfl
  | cons s rest =>
    rw [hfl] at h
    simp only at h
    have hcols : parse_columns s = [] := by injection h
    simp only [hcols]
    apply List.filter_eq_nil_iff.mpr
    intro v _
    simp only [hcols, List.length_nil, decide_eq_true_eq, not_and]
    intro hne h0
    exact hne (List.length_eq_zero.mp h0)

theorem create_dataframe_empty_of_none (bl : List (List Char))
    (h : (rawParse bl).1 = none) : create_dataframe bl = emptyTable := by
  rcases hp : rawParse bl with ⟨o, d⟩
  rw [hp] at h
  cases o with
  | none => simp [create_dataframe, hp]
  | some cols => simp at h

theorem create_dataframe_empty_of_cols_nil (bl : List (List Char))
    (h : (rawParse bl).1 = some []) : create_dataframe bl = emptyTable := by
  rcases hp : rawParse bl with ⟨o, d⟩
  rw [hp] at h
  cases o with
  | none => simp at h
  | some cols =>
    have hc : cols = [] := by simpa using h
    subst hc
    simp [create_dataframe, hp]

theorem create_dataframe_empty_of_rows_nil (bl : List (List Char))
    (h : (rawParse bl).2 = []) : create_dataframe bl = emptyTable := by
  cases h1 : (rawParse bl).1 with
  | none => exact create_dataframe_empty_of_none bl h1
  | some cols =>
    have heq : rawParse bl = (some cols, []) := by
      rw [← h1, ← h]
    simp [create_dataframe, heq]

theorem create_dataframe_eq_mkTable (bl : List (List Char))
    (cols : List (List Char)) (data : List (List (List Char)))
    (h : rawParse bl = (some cols, data)) (hc : cols ≠ []) (hd : data ≠ []) :
    create_dataframe bl = mkTable cols data := by
  simp [create_dataframe, h, hc, hd]

theorem create_dataframe_empty_of_all_format (bl : List (List Char))
    (h : ∀ l ∈ bl, is_format_line l = true) : create_dataframe bl = emptyTable := by
  have hfl : bl.filter (fun l => !is_format_line l) = [] := by
    apply List.filter_eq_nil_iff.mpr
    intro l hl
    simp [h l hl]
  apply create_dataframe_empty_of_none
  rw [rawParse_eq bl, hfl]

theorem create_dataframe_width (bl : List (List Char)) :
    ∀ r ∈ (create_dataframe bl).rows, r.length = (create_dataframe bl).columns.length := by
  intro r hr
  cases h1 : (rawParse bl).1 with
  | none =>
    rw [create_dataframe_empty_of_none bl h1] at hr
    simp [emptyTable] at hr
  | some cols =>
    have heq : rawParse bl = (some cols, (rawParse bl).2) := by rw [← h1]
    by_cases hc : cols = []
    · subst hc
      rw [create_dataframe_empty_of_cols_nil bl h1] at hr
      simp [emptyTable] at hr
    · by_cases hd : (rawParse bl).2 = []
      · rw [create_dataframe_empty_of_rows_nil bl hd] at hr
        simp [emptyTable] at hr
      · rw [create_dataframe_eq_mkTable bl cols (rawParse bl).2 heq hc hd] at hr ⊢
        rw [mkTable_columns]
        exact mkTable_row_length cols (rawParse bl).2 r hr

/-! ## Helper lemmas: the block dictionary. -/

theorem dictInsert_nil {α : Type} (k : List Char) (v : α) :
    dictInsert [] k v = [(k, v)] := rfl

theorem dictInsert_cons {α : Type} (k0 : List Char) (v0 : α) (r : List (List Char × α))
    (k : List Char) (v : α) :
    dictInsert ((k0, v0) :: r) k v =
      if k0 = k then (k0, v) :: r else (k0, v0) :: dictInsert r k v := rfl

theorem dictLookup_nil {α : Type} (k : List Char) :
    dictLookup ([] : List (List Char × α)) k = none := rfl

theorem dictLookup_cons {α : Type} (k0 : List Char) (v0 : α) (r : List (List Char × α))
    (k : List Char) :
    dictLookup ((k0, v0) :: r) k = if k0 = k then some v0 else dictLookup r k := rfl

theorem keys_dictInsert {α : Type} :
    ∀ (B : List (List Char × α)) (k : List Char) (v : α),
      keysOf (dictInsert B k v) = if k ∈ keysOf B then keysOf B else keysOf B ++ [k] := by
  intro B
  induction B with
  | nil =>
    intro k v
    rw [dictInsert_nil]
    simp only [keysOf, List.map_nil, List.map_cons]
    rw [if_neg (List.not_mem_nil k)]
    rfl
  | cons e r ih =>
    intro k v
    obtain ⟨k0, v0⟩ := e
    rw [dictInsert_cons]
    by_cases hk : k0 = k
    · subst hk
      rw [if_pos rfl]
      simp only [keysOf, List.map_cons]
      rw [if_pos (List.mem_cons_self k0 (r.map Prod.fst))]
    · have hne : ¬(k = k0) := fun h => hk h.symm
      rw [if_neg hk]
      simp only [keysOf, List.map_cons]
      rw [show (dictInsert r k v).map Prod.fst = keysOf (dictInsert r k v) from rfl, ih k v]
      by_cases hmem : k ∈ keysOf r
      · have hmem2 : k ∈ List.map Prod.fst r := hmem
        rw [if_pos hmem, if_pos (List.mem_cons_of_mem k0 hmem2)]
        rfl
      · have hnotc : ¬ k ∈ k0 :: List.map Prod.fst r := by
          intro hc
          rcases List.mem_cons.mp hc with h | h
          · exact hne h
          · exact hmem h
        rw [if_neg hmem, if_neg hnotc]
        rfl

theorem lookup_dictInsert {α : Type} :
    ∀ (B : List (List Char × α)) (k : List Char) (v : α) (k2 : List Char),
      dictLookup (dictInsert B k v) k2 = if k = k2 then some v else dictLookup B k2 := by
  intro B
  induction B with
  | nil =>
    intro k v k2
    rw [dictInsert_nil, dictLookup_cons]
  | cons e r ih =>
    intro k v k2
    obtain ⟨k0, v0⟩ := e
    rw [dictInsert_cons]
    by_cases hk : k0 = k
    · subst hk
      rw [if_pos rfl, dictLookup_cons, dictLookup_cons]
      by_cases h2 : k0 = k2 <;> simp [h2]
    · rw [if_neg hk, dictLookup_cons, dictLookup_cons]
      by_cases h2 : k0 = k2
      · subst h2
        have hne : ¬(k = k0) := fun h => hk h.symm
        simp [hne]
      · simp [h2, ih k v k2]

theorem lookup_none_of_not_mem {α : Type} :
    ∀ (B : List (List Char × α)) (k : List Char), k ∉ keysOf B → dictLookup B k = none := by
  intro B
  induction B with
  | nil => intro k _; rfl
  | cons e r ih =>
    intro k hk
    obtain ⟨k0, v0⟩ := e
    simp only [keysOf, List.map_cons, List.mem_cons] at hk
    push_neg at hk
    have hne : ¬(k0 = k) := fun heq => hk.1 heq.symm
    rw [dictLookup_cons, if_neg hne]
    exact ih k hk.2

theorem mem_keys_of_lookup_some {α : Type} :
    ∀ (B : List (List Char × α)) (k : List Char) (v : α),
      dictLookup B k = some v → k ∈ keysOf B := by
  intro B
  induction B with
  | nil => intro k v h; rw [dictLookup_nil] at h; cases h
  | cons e r ih =>
    intro k v h
    obtain ⟨k0, v0⟩ := e
    rw [dictLookup_cons] at h
    by_cases h0 : k0 = k
    · subst h0
      simp only [keysOf, List.map_cons]
      exact List.mem_cons_self _ _
    · rw [if_neg h0] at h
      simp only [keysOf, List.map_cons, List.mem_cons]
      exact Or.inr (ih k v h)

theorem mem_dictInsert {α : Type} :
    ∀ (B : List (List Char × α)) (k : List Char) (v : α) (x : List Char × α),
      x ∈ dictInsert B k v → x ∈ B ∨ x = (k, v) := by
  intro B
  induction B with
  | nil =>
    intro k v x h
    rw [dictInsert_nil] at h
    rcases List.mem_cons.mp h with h1 | h1
    · exact Or.inr h1
    · cases h1
  | cons e r ih =>
    intro k v x h
    obtain ⟨k0, v0⟩ := e
    rw [dictInsert_cons] at h
    by_cases hk : k0 = k
    · subst hk
      rw [if_pos rfl] at h
      rcases List.mem_cons.mp h with h1 | h1
      · exact Or.inr h1
      · exact Or.inl (List.mem_cons_of_mem _ h1)
    · rw [if_neg hk] at h
      rcases List.mem_cons.mp h with h1 | h1
      · exact Or.inl (by simp [h1])
      · rcases ih k v x h1 with h2 | h2
        · exact Or.inl (List.mem_cons_of_mem _ h2)
        · exact Or.inr h2

theorem dictInsert_length_le {α : Type} :
    ∀ (B : List (List Char × α)) (k : List Char) (v : α),
      (dictInsert B k v).length ≤ B.length + 1 := by
  intro B
  induction B with
  | nil => intro k v; rw [dictInsert_nil]; simp
  | cons e r ih =>
    intro k v
    obtain ⟨k0, v0⟩ := e
    rw [dictInsert_cons]
    by_cases hk : k0 = k
    · rw [if_pos hk]; simp
    · rw [if_neg hk]
      simp only [List.length_cons]
      have := ih k v
      omega

theorem nodup_keys_dictInsert {α : Type} (B : List (List Char × α)) (k : List Char) (v : α)
    (h : (keysOf B).Nodup) : (keysOf (dictInsert B k v)).Nodup := by
  rw [keys_dictInsert]
  by_cases hmem : k ∈ keysOf B
  · rw [if_pos hmem]; exact h
  · rw [if_neg hmem]
    have hd : List.Disjoint (keysOf B) [k] := by
      intro a ha hak
      rw [List.mem_singleton] at hak
      subst hak
      exact hmem ha
    exact h.append (List.nodup_singleton k) hd

theorem keys_dfold {α : Type} :
    ∀ (E : List (List Char × α)) (B : List (List Char × α)),
      keysOf (dfold B E) = keysOf B ++ newKeys (keysOf B) E := by
  intro E
  induction E with
  | nil => intro B; simp [dfold, newKeys]
  | cons e E ih =>
    intro B
    have hstep : dfold B (e :: E) = dfold (dictInsert B e.1 e.2) E := rfl
    rw [hstep, ih]
    rw [keys_dictInsert]
    by_cases hmem : e.1 ∈ keysOf B
    · simp only [if_pos hmem, newKeys, hmem, if_true]
    · simp only [if_neg hmem, newKeys, hmem, if_false]
      rw [List.append_assoc]
      rfl

theorem lookup_dfold {α : Type} :
    ∀ (E : List (List Char × α)) (B : List (List Char × α)) (k : List Char),
      dictLookup (dfold B E) k =
        match lastVal k E with
        | some v => some v
        | none => dictLookup B k := by
  intro E
  induction E with
  | nil => intro B k; rfl
  | cons e E ih =>
    intro B k
    have hstep : dfold B (e :: E) = dfold (dictInsert B e.1 e.2) E := rfl
    rw [hstep, ih]
    cases hl : lastVal k E with
    | some v => simp [lastVal, hl]
    | none =>
      simp only [lastVal, hl]
      rw [lookup_dictInsert]
      by_cases hk : e.1 = k
      · simp [hk]
      · simp [hk]

theorem nodup_keys_dfold {α : Type} :
    ∀ (E : List (List Char × α)) (B : List (List Char × α)),
      (keysOf B).Nodup → (keysOf (dfold B E)).Nodup := by
  intro E
  induction E with
  | nil => intro B h; exact h
  | cons e E ih =>
    intro B h
    exact ih (dictInsert B e.1 e.2) (nodup_keys_dictInsert B e.1 e.2 h)

theorem lastVal_isSome_of_mem {α : Type} :
    ∀ (E : List (List Char × α)) (e : List Char × α), e ∈ E → (lastVal e.1 E).isSome = true := by
  intro E
  induction E with
  | nil => intro e h; cases h
  | cons f E ih =>
    intro e h
    rcases List.mem_cons.mp h with h1 | h2
    · subst h1
      simp only [lastVal]
      cases hl : lastVal e.1 E with
      | some v => simp
      | none => simp
    · have hs := ih e h2
      simp only [lastVal]
      cases hl : lastVal e.1 E with
      | some v => simp
      | none => rw [hl] at hs; simp at hs

theorem newKeys_nil_of_all_seen {α : Type} :
    ∀ (E : List (List Char × α)) (seen : List (List Char)),
      (∀ e ∈ E, e.1 ∈ seen) → newKeys seen E = [] := by
  intro E
  induction E with
  | nil => intro seen _; rfl
  | cons e E ih =>
    intro seen h
    simp only [newKeys, if_pos (h e (List.mem_cons_self e E))]
    exact ih seen (fun f hf => h f (List.mem_cons_of_mem e hf))

theorem dict_ext {α : Type} :
    ∀ (B C : List (List Char × α)),
      (keysOf B).Nodup → keysOf B = keysOf C →
      (∀ k, dictLookup B k = dictLookup C k) → B = C := by
  intro B
  induction B with
  | nil =>
    intro C _ hkeys _
    cases C with
    | nil => rfl
    | cons c C2 => simp [keysOf] at hkeys
  | cons b B2 ih =>
    intro C hnd hkeys hlook
    obtain ⟨k0, v0⟩ := b
    cases C with
    | nil => simp [keysOf] at hkeys
    | cons c C2 =>
      obtain ⟨k1, v1⟩ := c
      simp only [keysOf, List.map_cons, List.cons.injEq] at hkeys
      obtain ⟨hk01, htails⟩ := hkeys
      subst hk01
      have hv01 : v0 = v1 := by
        have hl := hlook k0
        rw [dictLookup_cons, dictLookup_cons, if_pos rfl, if_pos rfl] at hl
        injection hl
      subst hv01
      have hnd2 : (keysOf B2).Nodup := by
        simp only [keysOf, List.map_cons, List.nodup_cons] at hnd
        exact hnd.2
      have hk0B2 : k0 ∉ keysOf B2 := by
        simp only [keysOf, List.map_cons, List.nodup_cons] at hnd
        exact hnd.1
      have hk0C2 : k0 ∉ keysOf C2 := by
        rw [show keysOf B2 = keysOf C2 from htails] at hk0B2
        exact hk0B2
      have htaillook : ∀ k, dictLookup B2 k = dictLookup C2 k := by
        intro k
        by_cases hk : k = k0
        · subst hk
          rw [lookup_none_of_not_mem B2 k hk0B2, lookup_none_of_not_mem C2 k hk0C2]
        · have hl := hlook k
          have hne : ¬(k0 = k) := fun h => hk h.symm
          rw [dictLookup_cons, dictLookup_cons, if_neg hne, if_neg hne] at hl
          exact hl
      rw [ih C2 hnd2 htails htaillook]

theorem dfold_idem {α : Type} (E : List (List Char × α)) :
    dfold (dfold ([] : List (List Char × α)) E) E = dfold [] E := by
  have hnodR : (keysOf (dfold ([] : List (List Char × α)) E)).Nodup :=
    nodup_keys_dfold E [] (by simp [keysOf])
  apply dict_ext
  · exact nodup_keys_dfold E _ hnodR
  · rw [keys_dfold]
    have hall : ∀ e ∈ E, e.1 ∈ keysOf (dfold ([] : List (List Char × α)) E) := by
      intro e he
      have hsome := lastVal_isSome_of_mem E e he
      obtain ⟨v, hv⟩ := Option.isSome_iff_exists.mp hsome
      apply mem_keys_of_lookup_some _ e.1 v
      rw [lookup_dfold, hv]
    rw [newKeys_nil_of_all_seen E _ hall]
    rw [List.append_nil]
  · intro k
    rw [lookup_dfold, lookup_dfold]
    cases hl : lastVal k E with
    | some v => rfl
    | none => rfl

/-! ## Segmentation: emitted blocks of `process_blocks`. -/

theorem dfold_append_single {α : Type} (B : List (List Char × α))
    (E : List (List Char × α)) (e : List Char × α) :
    dfold B (E ++ [e]) = dictInsert (dfold B E) e.1 e.2 := by
  unfold dfold
  rw [List.foldl_append]
  rfl

theorem flush_dfold (B : List (List Char × Table)) (s : SegState) :
    flush_blocks ⟨dfold B (s.emits.map emitTable), s.name, s.cur⟩ =
      dfold B ((seg_flush s).map emitTable) := by
  obtain ⟨emits, name, cur⟩ := s
  cases name with
  | none => rfl
  | some n =>
    simp only [flush_blocks, seg_flush]
    by_cases h : n ≠ [] ∧ cur ≠ []
    · rw [if_pos h, if_pos h]
      rw [List.map_append]
      rw [show List.map emitTable [(n, cur)] = [(n, create_dataframe cur)] from rfl]
      rw [dfold_append_single B (List.map emitTable emits) (n, create_dataframe cur)]
    · rw [if_neg h, if_neg h]

theorem pstep_seg (B : List (List Char × Table)) (s : SegState) (line : List Char) :
    pstep ⟨dfold B (s.emits.map emitTable), s.name, s.cur⟩ line =
      ⟨dfold B ((seg_step s line).emits.map emitTable),
        (seg_step s line).name, (seg_step s line).cur⟩ := by
  unfold pstep seg_step
  by_cases h0 : strip line = []
  · rw [if_pos h0, if_pos h0]
  · rw [if_neg h0, if_neg h0]
    by_cases hh : is_header_line (strip line) = true
    · rw [if_pos hh, if_pos hh]
      simp only
      rw [flush_dfold]
    · rw [Bool.not_eq_true] at hh
      rw [if_neg (by rw [hh]; intro hc; cases hc), if_neg (by rw [hh]; intro hc; cases hc)]

theorem foldl_pstep_seg :
    ∀ (lines : List (List Char)) (B : List (List Char × Table)) (s : SegState),
      lines.foldl pstep ⟨dfold B (s.emits.map emitTable), s.name, s.cur⟩ =
        ⟨dfold B ((lines.foldl seg_step s).emits.map emitTable),
          (lines.foldl seg_step s).name, (lines.foldl seg_step s).cur⟩ := by
  intro lines
  induction lines with
  | nil => intro B s; rfl
  | cons l t ih =>
    intro B s
    rw [List.foldl_cons, pstep_seg B s l, List.foldl_cons]
    exact ih B (seg_step s l)

theorem process_blocks_from_eq (B : List (List Char × Table)) (lines : List (List Char)) :
    process_blocks_from B lines = dfold B ((emissions lines).map emitTable) := by
  unfold process_blocks_from emissions
  have h0 : (⟨B, none, []⟩ : PState) =
      ⟨dfold B ((⟨[], none, []⟩ : SegState).emits.map emitTable),
        (⟨[], none, []⟩ : SegState).name, (⟨[], none, []⟩ : SegState).cur⟩ := rfl
  rw [h0, foldl_pstep_seg lines B ⟨[], none, []⟩]
  exact flush_dfold B _

/-! ## Emission invariants: block names and block lines. -/

theorem seg_flush_good (s : SegState)
    (hemits : ∀ e ∈ s.emits, GoodEmit e)
    (hcur : ∀ l ∈ s.cur, is_header_line l = false) :
    ∀ e ∈ seg_flush s, GoodEmit e := by
  intro e he
  obtain ⟨emits, name, cur⟩ := s
  cases name with
  | none => exact hemits e he
  | some n =>
    simp only [seg_flush] at he
    by_cases h : n ≠ [] ∧ cur ≠ []
    · rw [if_pos h] at he
      rcases List.mem_append.mp he with h1 | h1
      · exact hemits e h1
      · rw [List.mem_singleton] at h1
        subst h1
        exact ⟨h.1, hcur⟩
    · rw [if_neg h] at he
      exact hemits e he

theorem seg_fold_good :
    ∀ (lines : List (List Char)) (s : SegState),
      (∀ e ∈ s.emits, GoodEmit e) →
      (∀ l ∈ s.cur, is_header_line l = false) →
      (∀ e ∈ (lines.foldl seg_step s).emits, GoodEmit e) ∧
        (∀ l ∈ (lines.foldl seg_step s).cur, is_header_line l = false) := by
  intro lines
  induction lines with
  | nil => intro s h1 h2; exact ⟨h1, h2⟩
  | cons l t ih =>
    intro s h1 h2
    rw [List.foldl_cons]
    by_cases h0 : strip l = []
    · rw [show seg_step s l = s from by unfold seg_step; rw [if_pos h0]]
      exact ih s h1 h2
    · by_cases hh : is_header_line (strip l) = true
      · have hstep : seg_step s l =
            ⟨seg_flush s, some (extract_block_name (strip l)), []⟩ := by
          unfold seg_step
          rw [if_neg h0, if_pos hh]
        rw [hstep]
        apply ih
        · exact seg_flush_good s h1 h2
        · intro x hx
          cases hx
      · rw [Bool.not_eq_true] at hh
        have hstep : seg_step s l = { s with cur := s.cur ++ [strip l] } := by
          unfold seg_step
          rw [if_neg h0, if_neg (by rw [hh]; intro hc; cases hc)]
        rw [hstep]
        apply ih
        · exact h1
        · intro x hx
          rcases List.mem_append.mp hx with hx1 | hx1
          · exact h2 x hx1
          · rw [List.mem_singleton] at hx1
            subst hx1
            exact hh

theorem emissions_good (lines : List (List Char)) :
    ∀ e ∈ emissions lines, GoodEmit e := by
  unfold emissions
  have h := seg_fold_good lines ⟨[], none, []⟩ (by intro e he; cases he) (by intro l hl; cases hl)
  exact seg_flush_good _ h.1 h.2

theorem mem_dfold {α : Type} :
    ∀ (E : List (List Char × α)) (B : List (List Char × α)) (x : List Char × α),
      x ∈ dfold B E → x ∈ B ∨ ∃ e ∈ E, x = e := by
  intro E
  induction E with
  | nil => intro B x h; exact Or.inl h
  | cons e E ih =>
    intro B x h
    have hstep : dfold B (e :: E) = dfold (dictInsert B e.1 e.2) E := rfl
    rw [hstep] at h
    rcases ih (dictInsert B e.1 e.2) x h with h1 | ⟨f, hf, hx⟩
    · rcases mem_dictInsert B e.1 e.2 x h1 with h2 | h2
      · exact Or.inl h2
      · exact Or.inr ⟨e, List.mem_cons_self e E, by rw [h2]⟩
    · exact Or.inr ⟨f, List.mem_cons_of_mem e hf, hx⟩

theorem process_mem (B : List (List Char × Table)) (lines : List (List Char))
    (x : List Char × Table) (h : x ∈ process_blocks_from B lines) :
    x ∈ B ∨ ∃ bl, x.1 ≠ [] ∧ x.2 = create_dataframe bl ∧
      ∀ l ∈ bl, is_header_line l = false := by
  rw [process_blocks_from_eq] at h
  rcases mem_dfold _ B x h with h1 | ⟨e, he, hx⟩
  · exact Or.inl h1
  · right
    rcases List.mem_map.mp he with ⟨f, hf, hfe⟩
    have hg := emissions_good lines f hf
    refine ⟨f.2, ?_, ?_, hg.2⟩
    · rw [hx, ← hfe]
      exact hg.1
    · rw [hx, ← hfe]
      rfl

/-! ## Header counting and degenerate inputs. -/

theorem flush_length (s : PState) : (flush_blocks s).length ≤ s.blocks.length + nbOf s := by
  obtain ⟨blocks, name, cur⟩ := s
  cases name with
  | none => exact Nat.le_refl _
  | some n =>
    simp only [flush_blocks, nbOf]
    by_cases h : n ≠ [] ∧ cur ≠ []
    · rw [if_pos h]
      exact dictInsert_length_le blocks n (create_dataframe cur)
    · rw [if_neg h]
      exact Nat.le_succ _

theorem star_not_space : isSpaceChar '*' = false := rfl

theorem header_strip (l : List Char) : is_header_line (strip l) = hasChar '*' l := by
  unfold is_header_line
  exact hasChar_strip star_not_space l

theorem count_fold :
    ∀ (lines : List (List Char)) (s : PState),
      (lines.foldl pstep s).blocks.length + nbOf (lines.foldl pstep s) ≤
        s.blocks.length + nbOf s + (lines.filter (fun l => hasChar '*' l)).length := by
  intro lines
  induction lines with
  | nil => intro s; simp
  | cons l t ih =>
    intro s
    rw [List.foldl_cons, List.filter_cons]
    by_cases h0 : strip l = []
    · have hstar : hasChar '*' l = false := by
        rw [← header_strip, h0]
        rfl
      rw [hstar]
      simp only [Bool.false_eq_true, if_false]
      rw [show pstep s l = s from by unfold pstep; rw [if_pos h0]]
      exact ih s
    · by_cases hh : is_header_line (strip l) = true
      · have hstar : hasChar '*' l = true := by rw [← header_strip]; exact hh
        rw [hstar, if_pos rfl]
        have hstep : pstep s l =
            ⟨flush_blocks s, some (extract_block_name (strip l)), []⟩ := by
          unfold pstep
          rw [if_neg h0, if_pos hh]
        rw [hstep]
        have h1 : (List.foldl pstep ⟨flush_blocks s, some (extract_block_name (strip l)), []⟩ t).blocks.length
            + nbOf (List.foldl pstep ⟨flush_blocks s, some (extract_block_name (strip l)), []⟩ t)
            ≤ (flush_blocks s).length + 1 + (List.filter (fun x => hasChar '*' x) t).length :=
          ih ⟨flush_blocks s, some (extract_block_name (strip l)), []⟩
        have h2 := flush_length s
        simp only [List.length_cons]
        omega
      · rw [Bool.not_eq_true] at hh
        have hstar : hasChar '*' l = false := by rw [← header_strip]; exact hh
        rw [hstar]
        simp only [Bool.false_eq_true, if_false]
        have hstep : pstep s l = { s with cur := s.cur ++ [strip l] } := by
          unfold pstep
          rw [if_neg h0, if_neg (by rw [hh]; intro hc; cases hc)]
        rw [hstep]
        have h1 := ih { s with cur := s.cur ++ [strip l] }
        simp only [nbOf] at h1 ⊢
        exact h1

theorem process_count (lines : List (List Char)) :
    (process_blocks lines).length ≤ (lines.filter (fun l => hasChar '*' l)).length := by
  unfold process_blocks process_blocks_from
  have h1 := count_fold lines ⟨[], none, []⟩
  have h2 := flush_length (lines.foldl pstep ⟨[], none, []⟩)
  simp only [nbOf, List.length_nil] at h1 h2
  omega

theorem no_header_fold :
    ∀ (lines : List (List Char)) (s : PState), s.blocks = [] → s.name = none →
      (∀ l ∈ lines, hasChar '*' l = false) →
      (lines.foldl pstep s).blocks = [] ∧ (lines.foldl pstep s).name = none := by
  intro lines
  induction lines with
  | nil => intro s h1 h2 _; exact ⟨h1, h2⟩
  | cons l t ih =>
    intro s h1 h2 h3
    rw [List.foldl_cons]
    by_cases h0 : strip l = []
    · rw [show pstep s l = s from by unfold pstep; rw [if_pos h0]]
      exact ih s h1 h2 (fun x hx => h3 x (List.mem_cons_of_mem l hx))
    · have hh : is_header_line (strip l) = false := by
        rw [header_strip]
        exact h3 l (List.mem_cons_self l t)
      have hstep : pstep s l = { s with cur := s.cur ++ [strip l] } := by
        unfold pstep
        rw [if_neg h0, if_neg (by rw [hh]; intro hc; cases hc)]
      rw [hstep]
      exact ih _ h1 h2 (fun x hx => h3 x (List.mem_cons_of_mem l hx))

theorem process_no_header (lines : List (List Char))
    (h : ∀ l ∈ lines, hasChar '*' l = false) : process_blocks lines = [] := by
  unfold process_blocks process_blocks_from
  have h1 := no_header_fold lines ⟨[], none, []⟩ rfl rfl h
  rcases h1 with ⟨hb, hn⟩
  unfold flush_blocks
  rw [hn, hb]

/-! ## Header precedence and adjacent-header collapse. -/

theorem pstep_header (s : PState) (l : List Char) (hh : hasChar '*' l = true) :
    pstep s l = ⟨flush_blocks s, some (extract_block_name (strip l)), []⟩ := by
  have hh2 : is_header_line (strip l) = true := by rw [header_strip]; exact hh
  have hne : strip l ≠ [] := by
    intro h0
    rw [h0] at hh2
    cases hh2
  unfold pstep
  rw [if_neg hne, if_pos hh2]

theorem pstep_pstep_header (s : PState) (l1 l2 : List Char)
    (h1 : hasChar '*' l1 = true) (h2 : hasChar '*' l2 = true) :
    pstep (pstep s l1) l2 = pstep s l2 := by
  rw [pstep_header s l1 h1, pstep_header _ l2 h2, pstep_header s l2 h2]
  have hfl : flush_blocks ⟨flush_blocks s, some (extract_block_name (strip l1)), []⟩ =
      flush_blocks s := by
    simp [flush_blocks]
  rw [hfl]

theorem fold_skip :
    ∀ (mid : List (List Char)) (s : PState), (∀ l ∈ mid, strip l = []) →
      mid.foldl pstep s = s := by
  intro mid
  induction mid with
  | nil => intro s _; rfl
  | cons l t ih =>
    intro s h
    rw [List.foldl_cons]
    rw [show pstep s l = s from by unfold pstep; rw [if_pos (h l (List.mem_cons_self l t))]]
    exact ih s (fun x hx => h x (List.mem_cons_of_mem l hx))

theorem process_collapse (pre mid post : List (List Char)) (h1 h2 : List Char)
    (hh1 : hasChar '*' h1 = true) (hh2 : hasChar '*' h2 = true)
    (hmid : ∀ l ∈ mid, strip l = []) :
    process_blocks (pre ++ h1 :: (mid ++ h2 :: post)) = process_blocks (pre ++ h2 :: post) := by
  unfold process_blocks process_blocks_from
  congr 1
  rw [List.foldl_append, List.foldl_append, List.foldl_cons, List.foldl_cons]
  rw [List.foldl_append]
  rw [fold_skip mid _ hmid]
  rw [List.foldl_cons]
  rw [pstep_pstep_header _ h1 h2 hh1 hh2]

/-! ## Final helpers for the column-level claims. -/

theorem getD_mem {α : Type} (l : List α) (i : Nat) (d : α) (h : i < l.length) :
    l.getD i d ∈ l := by
  rw [List.getD_eq_getElem l d h]
  exact List.getElem_mem h

theorem contains_mem (l : List (List Char)) (a : List Char) : l.contains a = true ↔ a ∈ l :=
  List.elem_iff

theorem colAt_create (bl : List (List Char)) (cols : List (List Char))
    (data : List (List (List Char))) (j : Nat)
    (h : rawParse bl = (some cols, data)) (hc : cols ≠ []) (hd : data ≠ [])
    (hj : j < cols.length) :
    colAt (create_dataframe bl) j = normCol (cols.getD j []) (cellsAt data j) := by
  rw [create_dataframe_eq_mkTable bl cols data h hc hd, mkTable_colAt cols data j hj]
  rfl

theorem lastVal_none_of_not_bound {α : Type} :
    ∀ (E : List (List Char × α)) (n : List Char), (∀ e ∈ E, e.1 ≠ n) → lastVal n E = none := by
  intro E
  induction E with
  | nil => intro n _; rfl
  | cons f E ih =>
    intro n h
    simp only [lastVal]
    rw [ih n (fun e he => h e (List.mem_cons_of_mem f he))]
    show (if f.1 = n then some f.2 else none) = none
    rw [if_neg (h f (List.mem_cons_self f E))]

theorem lastVal_last {α : Type} :
    ∀ (E1 : List (List Char × α)) (n : List Char) (v : α) (E2 : List (List Char × α)),
      (∀ e ∈ E2, e.1 ≠ n) → lastVal n (E1 ++ (n, v) :: E2) = some v := by
  intro E1
  induction E1 with
  | nil =>
    intro n v E2 h
    rw [List.nil_append]
    show (match lastVal n E2 with
      | some w => some w
      | none => if (n, v).1 = n then some (n, v).2 else none) = some v
    rw [lastVal_none_of_not_bound E2 n h]
    show (if (n, v).1 = n then some (n, v).2 else none) = some v
    rw [if_pos rfl]
  | cons f E1 ih =>
    intro n v E2 h
    rw [List.cons_append]
    show (match lastVal n (E1 ++ (n, v) :: E2) with
      | some w => some w
      | none => if f.1 = n then some f.2 else none) = some v
    rw [ih n v E2 h]

theorem process_last_wins (lines : List (List Char)) (n : List Char)
    (bl : List (List Char)) (E1 E2 : List (List Char × List (List Char)))
    (heq : emissions lines = E1 ++ (n, bl) :: E2) (hlast : ∀ e ∈ E2, e.1 ≠ n) :
    dictLookup (process_blocks lines) n = some (create_dataframe bl) := by
  show dictLookup (process_blocks_from [] lines) n = some (create_dataframe bl)
  rw [process_blocks_from_eq, lookup_dfold]
  rw [heq, List.map_append, List.map_cons]
  rw [show emitTable (n, bl) = (n, create_dataframe bl) from rfl]
  have h2 : ∀ e ∈ E2.map emitTable, e.1 ≠ n := by
    intro e he
    rcases List.mem_map.mp he with ⟨f, hf, hfe⟩
    rw [← hfe]
    exact hlast f hf
  rw [lastVal_last (E1.map emitTable) n (create_dataframe bl) (E2.map emitTable) h2]

/-! ## Claim theorems. -/

/-- C1 (counterexample): on the end-to-end input of spec section 8, the
claim that the `Glucose_concentration` block has columns `[Time, conc]`
is false — its schema line contains `"(dd/mm/yyyy"`, is classified as a
format line and is skipped, so the block comes out empty. -/
theorem claim1_counterexample :
    (get_block (process_blocks c1Input) (("Glucose_concentration").toList)).columns ≠
      [("Time").toList, ("conc").toList] := by
  decide

/-- C1 (amended): on the end-to-end input of spec section 8, `process`
yields exactly two blocks: `Glucose_concentration` as an empty table
(its schema line holds the date-format hint and is skipped as a format
line, the first data line becomes a three-token schema, and the
remaining two-token line is dropped), and `Meal` with columns
`[Time, CHO]` and one row holding the timestamp 01/01/2024 08:10 and the
numeric value 30. -/
theorem claim1_theorem :
    process_blocks c1Input = [
      ((("Glucose_concentration").toList), emptyTable),
      ((("Meal").toList),
        { columns := [("Time").toList, ("CHO").toList],
          rows := [[Value.time (DateTime.mk 1 1 2024 8 10), Value.num 30]] })] := by
  decide

/-- C2 (counterexample): the claim that numeric coercion failures are
tolerated per cell is false — in the block `c2bl`, the cell `"1.5"`
parses as a number, yet because its neighbour `"abc"` does not, the
whole column is returned unchanged and `"1.5"` is left as text. -/
theorem claim2_counterexample :
    (parseNum (("1.5").toList)).isSome = true ∧
      colAt (create_dataframe c2bl) 0 =
        [Value.text (("1.5").toList), Value.text (("abc").toList)] := by
  decide

/-- C2 (amended): numeric coercion is all-or-nothing per column
(`errors='ignore'` returns the whole input series on any failure): for
every non-`Time` column of every block, if every non-missing cell parses
as a decimal number the column becomes numeric (with `"-"` as missing),
and if any non-missing cell fails to parse every cell keeps its original
text (with `"-"` still missing). -/
theorem claim2_theorem :
    ∀ (bl : List (List Char)) (cols : List (List Char)) (data : List (List (List Char)))
      (j : Nat),
      rawParse bl = (some cols, data) → cols ≠ [] → data ≠ [] → j < cols.length →
      cols.getD j [] ≠ timeName →
      (((replMissing (cellsAt data j)).all numOk = true →
          colAt (create_dataframe bl) j = (replMissing (cellsAt data j)).map numVal)
        ∧ ((replMissing (cellsAt data j)).all numOk = false →
          colAt (create_dataframe bl) j = (replMissing (cellsAt data j)).map textVal)) := by
  intro bl cols data j h hc hd hj hname
  have hcol := colAt_create bl cols data j h hc hd hj
  constructor
  · intro hall
    rw [hcol]
    unfold normCol
    rw [if_neg hname]
    unfold normNumeric
    rw [if_pos hall]
  · intro hfalse
    rw [hcol]
    unfold normCol
    rw [if_neg hname]
    unfold normNumeric
    rw [if_neg (by rw [hfalse]; exact Bool.false_ne_true)]

/-- C2 (witness): the one-column block `w2bl` whose single cell `"1"`
parses; the column becomes numeric. -/
theorem claim2_witness :
    rawParse w2bl = (some [("A").toList], [[("1").toList]]) ∧
      (("A").toList : List Char) ≠ timeName ∧
      (replMissing (cellsAt [[("1").toList]] 0)).all numOk = true ∧
      colAt (create_dataframe w2bl) 0 = (replMissing (cellsAt [[("1").toList]] 0)).map numVal :=
  ⟨by decide, by decide, by decide,
    (claim2_theorem w2bl [("A").toList] [[("1").toList]] 0 (by decide) (by decide)
      (by decide) (by decide) (by decide)).1 (by decide)⟩

/-- C3 (counterexample): the claim that a `"-"` cell becomes missing in
every column, including `Time`, is false — in the block `c3bl` the
`Time` cell `"-"` is never replaced, fails timestamp parsing, degrades
the column to text, and stays as the text `"-"`. -/
theorem claim3_counterexample :
    colAt (create_dataframe c3bl) 0 = [Value.text (("-").toList)] ∧
      Value.text (("-").toList) ≠ Value.missing := by
  decide

/-- C3 (amended): in every column other than `Time`, a cell whose raw
token is exactly `"-"` becomes the canonical missing value, both when
the column converts to numeric and when it falls back to text; the
`Time` column never has `"-"` replaced. -/
theorem claim3_theorem :
    ∀ (bl : List (List Char)) (cols : List (List Char)) (data : List (List (List Char)))
      (i j : Nat),
      rawParse bl = (some cols, data) → cols ≠ [] → data ≠ [] → j < cols.length →
      cols.getD j [] ≠ timeName → i < data.length →
      (data.getD i []).getD j [] = hyphen →
      (colAt (create_dataframe bl) j).getD i Value.missing = Value.missing := by
  intro bl cols data i j h hc hd hj hname hi hcell
  have hcol := colAt_create bl cols data j h hc hd hj
  rw [hcol]
  unfold normCol
  rw [if_neg hname]
  have hcells : (cellsAt data j).getD i [] = hyphen := by
    unfold cellsAt
    rw [getD_map_lt (fun r => r.getD j []) [] [] data i hi]
    exact hcell
  have hilen : i < (cellsAt data j).length := by
    rw [length_cellsAt]
    exact hi
  have hrep : (replMissing (cellsAt data j)).getD i none = none := by
    unfold replMissing
    rw [getD_map_lt (fun c => if c = hyphen then none else some c) [] none (cellsAt data j) i hilen]
    rw [hcells, if_pos rfl]
  have hlenrep : i < (replMissing (cellsAt data j)).length := by
    rw [length_replMissing]
    exact hilen
  unfold normNumeric
  by_cases hall : (replMissing (cellsAt data j)).all numOk = true
  · rw [if_pos hall]
    rw [getD_map_lt numVal none Value.missing _ i hlenrep, hrep]
    rfl
  · rw [if_neg hall]
    rw [getD_map_lt textVal none Value.missing _ i hlenrep, hrep]
    rfl

/-- C3 (witness): the non-`Time` block `w3bl` whose single cell is the
literal `"-"`; the resulting cell is missing. -/
theorem claim3_witness :
    rawParse w3bl = (some [("A").toList], [[("-").toList]]) ∧
      (("A").toList : List Char) ≠ timeName ∧
      ([[("-").toList]].getD 0 []).getD 0 [] = hyphen ∧
      (colAt (create_dataframe w3bl) 0).getD 0 Value.missing = Value.missing :=
  ⟨by decide, by decide, by decide,
    claim3_theorem w3bl [("A").toList] [[("-").toList]] 0 0 (by decide) (by decide)
      (by decide) (by decide) (by decide) (by decide) (by decide)⟩

/-- C4 (confirmed): `Time`-column coercion is all-or-nothing per column:
when every cell of the `Time` column parses against `%d/%m/%Y %H:%M` the
whole column becomes timestamps (and no warning is emitted); when any
cell fails, the whole column stays text, the warning flag is set, and —
as the concrete two-block input `c4Input` shows — the block and its
sibling blocks are still fully processed. -/
theorem claim4_theorem :
    (∀ (bl : List (List Char)) (cols : List (List Char)) (data : List (List (List Char)))
      (j : Nat),
      rawParse bl = (some cols, data) → cols ≠ [] → data ≠ [] → j < cols.length →
      idxOfCol timeName cols = j → cols.getD j [] = timeName →
      ((∀ ts, parseAllTimes (cellsAt data j) = some ts →
          colAt (create_dataframe bl) j = ts.map Value.time ∧ time_warning bl = false)
        ∧ (parseAllTimes (cellsAt data j) = none →
          colAt (create_dataframe bl) j = (cellsAt data j).map Value.text ∧
            time_warning bl = true)
        ∧ (parseAllTimes (cellsAt data j) = none ↔
            ∃ c ∈ cellsAt data j, parseTimestamp c = none)))
    ∧ process_blocks c4Input = [
        ((("G").toList),
          { columns := [("Time").toList, ("v").toList],
            rows := [[Value.text (("notadate").toList), Value.num 1]] }),
        ((("M").toList),
          { columns := [("A").toList], rows := [[Value.num 2]] })] := by
  constructor
  · intro bl cols data j h hc hd hj hidx hname
    have hcol := colAt_create bl cols data j h hc hd hj
    have hguard : ¬(cols = [] ∨ data = []) := by
      push_neg
      exact ⟨hc, hd⟩
    refine ⟨?_, ?_, parseAllTimes_none_iff (cellsAt data j)⟩
    · intro ts hts
      constructor
      · rw [hcol, hname]
        unfold normCol
        rw [if_pos rfl]
        unfold normTime
        rw [hts]
      · simp only [time_warning, h]
        rw [if_neg hguard, hidx, hts]
        simp
    · intro hnone
      constructor
      · rw [hcol, hname]
        unfold normCol
        rw [if_pos rfl]
        unfold normTime
        rw [hnone]
      · have hmem : timeName ∈ cols := by
          rw [← hname]
          exact getD_mem cols j [] hj
        simp only [time_warning, h]
        rw [if_neg hguard, hidx, hnone]
        simp only [Option.isNone_none, Bool.and_true]
        exact (contains_mem cols timeName).mpr hmem
  · decide

/-- C4 (witness): the `Time` block `w4bl` whose single cell parses; the
column becomes a timestamp and no warning is set. -/
theorem claim4_witness :
    rawParse w4bl = (some [timeName], [[("01/01/2024 08:00").toList]]) ∧
      parseAllTimes (cellsAt [[("01/01/2024 08:00").toList]] 0) =
        some [DateTime.mk 1 1 2024 8 0] ∧
      (colAt (create_dataframe w4bl) 0 = [Value.time (DateTime.mk 1 1 2024 8 0)] ∧
        time_warning w4bl = false) :=
  ⟨by decide, by decide,
    (claim4_theorem.1 w4bl [timeName] [[("01/01/2024 08:00").toList]] 0 (by decide)
      (by decide) (by decide) (by decide) (by decide) (by decide)).1
      [DateTime.mk 1 1 2024 8 0] (by decide)⟩

/-- C5 (confirmed): row acceptance is exactly the width test: with a
non-empty schema, the accepted rows are precisely the tokenisations of
the post-schema non-format lines whose token count equals the column
count, in input order; a zero-column schema accepts nothing; and every
row of every table in a parse result has exactly one value per column. -/
theorem claim5_theorem :
    (∀ (bl : List (List Char)) (cols : List (List Char)),
      (rawParse bl).1 = some cols → cols ≠ [] →
      (rawParse bl).2 =
        ((bl.filter (fun l => !is_format_line l)).tail.map parse_data_line).filter
          (fun v => decide (v.length = cols.length)))
    ∧ (∀ bl : List (List Char), (rawParse bl).1 = some [] → (rawParse bl).2 = [])
    ∧ (∀ (lines : List (List Char)) (e : List Char × Table), e ∈ process_blocks lines →
        ∀ r ∈ e.2.rows, r.length = e.2.columns.length) := by
  refine ⟨rawParse_rows_iff, rawParse_cols_nil_rows, ?_⟩
  intro lines e he r hr
  rcases process_mem [] lines e he with h0 | ⟨bl, _, h2, _⟩
  · cases h0
  · rw [h2] at hr ⊢
    exact create_dataframe_width bl r hr

/-- C5 (witness): against the three-column schema of `w5bl`, the
two-token line contributes nothing and the three-token line is kept; and
in the parse of `w5lines` the single row has width two. -/
theorem claim5_witness :
    ((rawParse w5bl).1 = some [("A").toList, ("B").toList, ("C").toList] ∧
      (rawParse w5bl).2 =
        ((w5bl.filter (fun l => !is_format_line l)).tail.map parse_data_line).filter
          (fun v => decide (v.length = ([("A").toList, ("B").toList, ("C").toList]).length))) ∧
      ((("B").toList,
          ({ columns := [("x").toList, ("y").toList],
             rows := [[Value.num 1, Value.num 2]] } : Table)) ∈ process_blocks w5lines ∧
        ([Value.num 1, Value.num 2] : List Value).length =
          ([("x").toList, ("y").toList]).length) := by
  constructor
  · exact ⟨by decide,
      claim5_theorem.1 w5bl [("A").toList, ("B").toList, ("C").toList] (by decide) (by decide)⟩
  · constructor
    · decide
    · exact claim5_theorem.2.2 w5lines
        ((("B").toList),
          ({ columns := [("x").toList, ("y").toList],
             rows := [[Value.num 1, Value.num 2]] } : Table)) (by decide)
        [Value.num 1, Value.num 2] (by decide)

/-- C6 (confirmed): the parse result of a fresh run has at most as many
blocks as there are lines containing an asterisk; a header immediately
followed (up to blank lines) by another header contributes nothing; an
input with no asterisk lines yields zero blocks; and last-wins holds for
every input: whenever an emitted block named `n` is the last emission
carrying that name, the result maps `n` to exactly that block's table,
whatever earlier emitted blocks shared the name — concretely, on
`c6Input` the second `A` block's table overwrites the first. -/
theorem claim6_theorem :
    (∀ lines : List (List Char),
      (process_blocks lines).length ≤ (lines.filter (fun l => hasChar '*' l)).length)
    ∧ (∀ (pre mid post : List (List Char)) (h1 h2 : List Char),
        hasChar '*' h1 = true → hasChar '*' h2 = true → (∀ l ∈ mid, strip l = []) →
        process_blocks (pre ++ h1 :: (mid ++ h2 :: post)) =
          process_blocks (pre ++ h2 :: post))
    ∧ (∀ lines : List (List Char), (∀ l ∈ lines, hasChar '*' l = false) →
        process_blocks lines = [])
    ∧ (∀ (lines : List (List Char)) (n : List Char) (bl : List (List Char))
        (E1 E2 : List (List Char × List (List Char))),
        emissions lines = E1 ++ (n, bl) :: E2 → (∀ e ∈ E2, e.1 ≠ n) →
        dictLookup (process_blocks lines) n = some (create_dataframe bl))
    ∧ process_blocks c6Input =
        [((("A").toList), { columns := [("X").toList], rows := [[Value.num 2]] })] :=
  ⟨process_count, process_collapse, process_no_header, process_last_wins, by decide⟩

/-- C6 (witness): concrete instances — the block count of `c6Input` is
bounded by its two header lines, dropping a header directly before
another header leaves the parse unchanged, a header-free input parses to
nothing, and the lookup of `A` in the parse of `c6Input` returns the
table of the later of its two equally-named emissions. -/
theorem claim6_witness :
    ((process_blocks c6Input).length ≤ (c6Input.filter (fun l => hasChar '*' l)).length) ∧
      process_blocks ([("* H *").toList] ++
          ("* K *").toList :: ([] ++ ("* B *").toList :: [("X").toList, ("1").toList])) =
        process_blocks ([("* H *").toList] ++
          ("* B *").toList :: [("X").toList, ("1").toList]) ∧
      process_blocks [("X").toList] = [] ∧
      (emissions c6Input =
          [((("A").toList), [("X").toList, ("1").toList])] ++
            ((("A").toList), [("X").toList, ("2").toList]) ::
              ([] : List (List Char × List (List Char))) ∧
        dictLookup (process_blocks c6Input) (("A").toList) =
          some (create_dataframe [("X").toList, ("2").toList])) := by
  refine ⟨claim6_theorem.1 c6Input, ?_, ?_, by decide, ?_⟩
  · exact claim6_theorem.2.1 [("* H *").toList] [] [("X").toList, ("1").toList]
      (("* K *").toList) (("* B *").toList) (by decide) (by decide)
      (by intro l hl; cases hl)
  · exact claim6_theorem.2.2.1 [("X").toList] (by decide)
  · exact claim6_theorem.2.2.2.1 c6Input (("A").toList) [("X").toList, ("2").toList]
      [((("A").toList), [("X").toList, ("1").toList])] [] (by decide)
      (by intro e he; cases he)

/-- C7 (confirmed): every degenerate block is a non-error empty table —
a block of only format lines, a block whose schema has zero columns, and
a block with zero accepted rows all produce the empty table — and
`get_block` on an absent name returns the empty table instead of
raising. -/
theorem claim7_theorem :
    (∀ bl : List (List Char), (∀ l ∈ bl, is_format_line l = true) →
      create_dataframe bl = emptyTable)
    ∧ (∀ bl : List (List Char), (rawParse bl).1 = some [] → create_dataframe bl = emptyTable)
    ∧ (∀ bl : List (List Char), (rawParse bl).2 = [] → create_dataframe bl = emptyTable)
    ∧ (∀ (B : List (List Char × Table)) (name : List Char),
        dictLookup B name = none → get_block B name = emptyTable) := by
  refine ⟨create_dataframe_empty_of_all_format, create_dataframe_empty_of_cols_nil,
    create_dataframe_empty_of_rows_nil, ?_⟩
  intro B name h
  unfold get_block
  rw [h]
  rfl

/-- C7 (witness): a format-only block, a zero-column schema block, a
block whose only data line has the wrong width, and a lookup in the
empty dictionary all yield the empty table. -/
theorem claim7_witness :
    create_dataframe [("(min)").toList] = emptyTable ∧
      create_dataframe [("(mmol/L)").toList, ("1\t2").toList] = emptyTable ∧
      create_dataframe [("A B").toList, ("1").toList] = emptyTable ∧
      get_block [] (("Meal").toList) = emptyTable :=
  ⟨claim7_theorem.1 [("(min)").toList] (by decide),
    claim7_theorem.2.1 [("(mmol/L)").toList, ("1\t2").toList] (by decide),
    claim7_theorem.2.2.1 [("A B").toList, ("1").toList] (by decide),
    claim7_theorem.2.2.2 [] (("Meal").toList) (by decide)⟩

/-- C8 (confirmed): running `process_blocks` a second time over the same
line sequence — with the block dictionary left by the first run as the
starting state, as re-running the method on the same parser instance
does — returns a parse result structurally equal to the first. -/
theorem claim8_theorem :
    ∀ lines : List (List Char),
      process_blocks_from (process_blocks lines) lines = process_blocks lines := by
  intro lines
  unfold process_blocks
  rw [process_blocks_from_eq, process_blocks_from_eq]
  exact dfold_idem _

/-- C9 (confirmed): a header consisting only of asterisks and whitespace
extracts the empty block name, and no block of any parse result is keyed
by the empty name — the emit condition requires a non-empty name. -/
theorem claim9_theorem :
    (∀ l : List Char, (∀ c ∈ l, c = '*' ∨ isSpaceChar c = true) →
      extract_block_name l = [])
    ∧ (∀ (lines : List (List Char)) (e : List Char × Table),
        e ∈ process_blocks lines → e.1 ≠ []) := by
  constructor
  · intro l h
    unfold extract_block_name
    apply strip_eq_nil_of_all_space
    intro a ha
    rw [List.mem_filter] at ha
    rcases h a ha.1 with h1 | h1
    · exfalso
      have h2 := ha.2
      rw [h1] at h2
      simp at h2
    · exact h1
  · intro lines e he
    rcases process_mem [] lines e he with h0 | ⟨bl, hne, _, _⟩
    · cases h0
    · exact hne

/-- C9 (witness): the all-asterisk header `"** **"` extracts the empty
name, and the block of `w9lines` has the non-empty name `"A"`. -/
theorem claim9_witness :
    ((∀ c ∈ ("** **").toList, c = '*' ∨ isSpaceChar c = true) ∧
      extract_block_name (("** **").toList) = []) ∧
      (((("A").toList),
          ({ columns := [("X").toList], rows := [[Value.num 1]] } : Table)) ∈
            process_blocks w9lines ∧
        ((("A").toList) : List Char) ≠ []) := by
  constructor
  · exact ⟨by decide, claim9_theorem.1 (("** **").toList) (by decide)⟩
  · exact ⟨by decide,
      claim9_theorem.2 w9lines
        ((("A").toList), ({ columns := [("X").toList], rows := [[Value.num 1]] } : Table))
        (by decide)⟩

/-- C10 (confirmed): header classification wins over format-line
classification — any line containing an asterisk (even one that also
contains `"(min)"`, as in `c10Input`) takes the header branch of the
loop, terminating the pending block, and the lines collected into any
emitted block never contain an asterisk, so format-line filtering only
ever applies to block bodies. -/
theorem claim10_theorem :
    (∀ (s : PState) (l : List Char), hasChar '*' l = true →
      pstep s l = ⟨flush_blocks s, some (extract_block_name (strip l)), []⟩)
    ∧ (∀ (lines : List (List Char)) (e : List Char × Table), e ∈ process_blocks lines →
        ∃ bl, e.2 = create_dataframe bl ∧ ∀ l ∈ bl, is_header_line l = false)
    ∧ process_blocks c10Input =
        [((("Basal (min)").toList), { columns := [("X").toList], rows := [[Value.num 2]] })] := by
  refine ⟨pstep_header, ?_, by decide⟩
  intro lines e he
  rcases process_mem [] lines e he with h0 | ⟨bl, _, h2, h3⟩
  · cases h0
  · exact ⟨bl, h2, h3⟩

/-- C10 (witness): the line `"* A (min) *"` contains both the header
marker and a format hint, and is still treated as a header; the block of
`c10Input` is backed by a star-free body. -/
theorem claim10_witness :
    (hasChar '*' (("* A (min) *").toList) = true ∧
      pstep ⟨[], none, []⟩ (("* A (min) *").toList) =
        ⟨flush_blocks ⟨[], none, []⟩,
          some (extract_block_name (strip (("* A (min) *").toList))), []⟩) ∧
      (((("Basal (min)").toList),
          ({ columns := [("X").toList], rows := [[Value.num 2]] } : Table)) ∈
            process_blocks c10Input ∧
        ∃ bl, ({ columns := [("X").toList], rows := [[Value.num 2]] } : Table) =
            create_dataframe bl ∧ ∀ l ∈ bl, is_header_line l = false) := by
  constructor
  · exact ⟨by decide, claim10_theorem.1 ⟨[], none, []⟩ (("* A (min) *").toList) (by decide)⟩
  · constructor
    · decide
    · exact claim10_theorem.2.1 c10Input
        ((("Basal (min)").toList),
          ({ columns := [("X").toList], rows := [[Value.num 2]] } : Table)) (by decide)

end CGMview
